import Mathlib

/-!
Verification development for the consensus-facing core of go-opera:
the strongly-see ancestry index (src/posposet/seeing/strongly.go) and the
emitter's gas-power admission control (src/gossip/emitter.go).

The Go code is shallowly embedded: pointers into the event map become an
association list keyed by event hash, in-place mutation becomes explicit
state passing, and every Go runtime failure (nil dereference, slice index
out of range, fatal log) is an explicit error value.  Machine integers are
Nat with an explicit mod 2^64 wherever Go's uint64 arithmetic can wrap.
-/

/-- Event hashes (hash.Event) are modelled as plain identifiers. -/
abbrev EH := Nat

/-- Validator identities (hash.Peer). -/
abbrev Peer := Nat

/-- Failure modes of the embedded Go code.  `dupEvent` is the fatal log in
`Strongly.Add`; `nilDeref` is a nil-pointer dereference; `indexOOB` is a
slice index out of range; `hang` marks a non-terminating worklist loop. -/
inductive Err where
  | dupEvent
  | nilDeref
  | indexOOB
  | hang
  deriving DecidableEq, Repr

/-- Result of running a piece of embedded Go code that can panic. -/
inductive ERes (α : Type) where
  | ok (a : α)
  | fail (e : Err)
  deriving DecidableEq, Repr

/-- seeing.Event: the per-event ancestry record.  It embeds the fields of
inter.Event that strongly.go reads (Creator, Index, Parents) together with
the index data (CreatorN, LowestSees, HighestSeen).  A `none` entry in
`Parents` is the zero hash (no parent in that slot). -/
structure SEvent where
  Creator : Peer
  Index : Nat
  Parents : List (Option EH)
  CreatorN : Nat
  LowestSees : List Nat
  HighestSeen : List Nat
  deriving DecidableEq, Repr

/-- The input to `Strongly.Add` (the inter.Event fields it consumes). -/
structure InEvent where
  hash : EH
  Creator : Peer
  Index : Nat
  Parents : List (Option EH)
  deriving DecidableEq, Repr

/-- Lookup in the events map (`ss.events[h]`); `none` is Go's nil. -/
def lookupE : List (EH × SEvent) → EH → Option SEvent
  | [], _ => none
  | kv :: rest, h => if kv.1 = h then some kv.2 else lookupE rest h

/-- In-place mutation of the record stored under key `h` (Go updates the
record through a pointer; keys are unique in a Go map, so replacing the
first occurrence is exact). -/
def updateE : List (EH × SEvent) → EH → SEvent → List (EH × SEvent)
  | [], _, _ => []
  | kv :: rest, h, v => if kv.1 = h then (h, v) :: rest else kv :: updateE rest h v

/-- Lookup in the creator-slot table (`ss.nodes[m]`). -/
def lookupNode : List (Peer × Nat) → Peer → Option Nat
  | [], _ => none
  | kv :: rest, m => if kv.1 = m then some kv.2 else lookupNode rest m

/-- setLowestSeesIfMin from strongly.go.  Reads `e.LowestSees[node]`
(out of range is a Go panic), accepts the update when the slot is unset,
the candidate is smaller, or — the special case — the slot is the record's
own creator slot and its value is still at most the record's own Index.
Returns the (possibly updated) record and whether the update was accepted. -/
def setLowestSeesIfMin (e : SEvent) (node : Nat) (ref : Nat) : ERes (SEvent × Bool) :=
  match e.LowestSees.get? node with
  | none => .fail .indexOOB
  | some v =>
    if v = 0 ∨ ref < v ∨ (node = e.CreatorN ∧ v ≤ e.Index) then
      .ok ({ e with LowestSees := e.LowestSees.set node ref }, true)
    else
      .ok (e, false)

/-- One pass of the inner loop of updateAllLowestSees: process every event
of the current worklist in order, returning the updated map and the list of
parents pushed for the next pass.  The Go worklist holds `*Event` pointers
fetched from `ss.events`; a missing entry is a nil pointer, dereferenced
inside setLowestSeesIfMin.  Parents of an item are pushed only when the
update at that item was accepted. -/
def processItems (node ref : Nat) : List EH → List (EH × SEvent) → ERes (List (EH × SEvent) × List EH)
  | [], evs => .ok (evs, [])
  | h :: rest, evs =>
    match lookupE evs h with
    | none => .fail .nilDeref
    | some ev =>
      match setLowestSeesIfMin ev node ref with
      | .fail er => .fail er
      | .ok (ev2, acc) =>
        match processItems node ref rest (updateE evs h ev2) with
        | .fail er => .fail er
        | .ok (evs2, pushed) =>
          .ok (evs2, (if acc then ev2.Parents.filterMap id else []) ++ pushed)

/-- The outer `for { ... }` loop of updateAllLowestSees, with explicit
fuel: each fuel unit is one pass over the worklist; the loop exits when no
parents were pushed.  Running out of fuel is reported as `hang` (the Go
loop would still be running). -/
def lowestLoop (node ref : Nat) : Nat → List (EH × SEvent) → List EH → ERes (List (EH × SEvent))
  | 0, _, _ => .fail .hang
  | fuel + 1, evs, wl =>
    match processItems node ref wl evs with
    | .fail er => .fail er
    | .ok (evs2, next) =>
      if next.isEmpty then .ok evs2
      else lowestLoop node ref fuel evs2 next

/-- updateAllLowestSees from strongly.go: back-propagate the new lowest
descendant fact starting from one parent.  The fuel `evs.length + 1`
suffices for every DAG-ordered map (proved below); on a cyclic map —
unreachable through Add — the Go loop diverges and this returns `hang`. -/
def updateAllLowestSees (evs : List (EH × SEvent)) (p : EH) (node ref : Nat) : ERes (List (EH × SEvent)) :=
  lowestLoop node ref (evs.length + 1) evs [p]

/-- updateAllHighestSeen from strongly.go: element-wise max over the
indices of the parent's array; reading `e.HighestSeen[i]` past the end of
the child's array is a Go panic.  First argument is the child's array,
second the parent's. -/
def updHigh : List Nat → List Nat → ERes (List Nat)
  | ehs, [] => .ok ehs
  | [], _ :: _ => .fail .indexOOB
  | a :: ehs, b :: phs =>
    match updHigh ehs phs with
    | .fail er => .fail er
    | .ok r => .ok ((if a < b then b else a) :: r)

/-- Write `l[i] = v` with Go slice semantics: out of range is a panic. -/
def setAt (l : List Nat) (i v : Nat) : ERes (List Nat) :=
  if i < l.length then .ok (l.set i v) else .fail .indexOOB

/-- The `for p := range e.Parents` loop of fillEventRefs: for each
non-zero parent, back-propagate LowestSees through the map, then merge the
parent's HighestSeen into the new event's array (the parent is re-read
after the walk, as the Go pointer alias sees the mutations). -/
def fillEventRefsLoop (node ref : Nat) : List (Option EH) → List (EH × SEvent) → SEvent → ERes (List (EH × SEvent) × SEvent)
  | [], evs, ev => .ok (evs, ev)
  | none :: rest, evs, ev => fillEventRefsLoop node ref rest evs ev
  | some p :: rest, evs, ev =>
    match updateAllLowestSees evs p node ref with
    | .fail er => .fail er
    | .ok evs2 =>
      match lookupE evs2 p with
      | none => .fail .nilDeref
      | some parent =>
        match updHigh ev.HighestSeen parent.HighestSeen with
        | .fail er => .fail er
        | .ok hs => fillEventRefsLoop node ref rest evs2 { ev with HighestSeen := hs }

/-- fillEventRefs from strongly.go: self-seeding of the creator slot in
both arrays, then the parents loop. -/
def fillEventRefs (evs : List (EH × SEvent)) (ev : SEvent) : ERes (List (EH × SEvent) × SEvent) :=
  match setAt ev.LowestSees ev.CreatorN ev.Index with
  | .fail er => .fail er
  | .ok ls =>
    match setAt ev.HighestSeen ev.CreatorN ev.Index with
    | .fail er => .fail er
    | .ok hs =>
      fillEventRefsLoop ev.CreatorN ev.Index ev.Parents evs
        { ev with LowestSees := ls, HighestSeen := hs }

/-- The Strongly engine state: the bound validator set (identity with
stake, in enumeration order), the creator-slot table, and the event map. -/
structure Strongly where
  members : List (Peer × Nat)
  nodes : List (Peer × Nat)
  events : List (EH × SEvent)
  deriving DecidableEq, Repr

/-- Strongly.Reset: bind the validator set, clear all buffers.  `New`
delegates to this. -/
def Strongly.Reset (members : List (Peer × Nat)) : Strongly :=
  { members := members, nodes := [], events := [] }

/-- Strongly.Add: fatal on a duplicate hash; allocate both arrays with
length `len(ss.members)`; assign the creator slot in first-seen order
(setNodes); then fillEventRefs; finally insert the record into the map. -/
def Strongly.Add (st : Strongly) (e : InEvent) : ERes Strongly :=
  match lookupE st.events e.hash with
  | some _ => .fail .dupEvent
  | none =>
    let cn := (lookupNode st.nodes e.Creator).getD st.nodes.length
    let nodes2 :=
      match lookupNode st.nodes e.Creator with
      | some _ => st.nodes
      | none => st.nodes ++ [(e.Creator, st.nodes.length)]
    let ev0 : SEvent :=
      { Creator := e.Creator, Index := e.Index, Parents := e.Parents, CreatorN := cn,
        LowestSees := List.replicate st.members.length 0,
        HighestSeen := List.replicate st.members.length 0 }
    match fillEventRefs st.events ev0 with
    | .fail er => .fail er
    | .ok (evs2, ev2) =>
      .ok { st with nodes := nodes2, events := evs2 ++ [(e.hash, ev2)] }

/-- The creator slot used for member `m` inside sufficientCoherence:
`ss.nodes[m]` — a missing key yields Go's zero value, slot 0. -/
def slotOf (nodes : List (Peer × Nat)) (m : Peer) : Nat :=
  (lookupNode nodes m).getD 0

/-- The per-member test of sufficientCoherence, with Go's evaluation
order: `event2.LowestSees[n] <= event1.HighestSeen[n] && event2.LowestSees[n] != 0`.
A nil event pointer or an out-of-range slot is a panic. -/
def coherentCond (e1? e2? : Option SEvent) (n : Nat) : ERes Bool :=
  match e2? with
  | none => .fail .nilDeref
  | some e2 =>
    match e2.LowestSees.get? n with
    | none => .fail .indexOOB
    | some l =>
      match e1? with
      | none => .fail .nilDeref
      | some e1 =>
        match e1.HighestSeen.get? n with
        | none => .fail .indexOOB
        | some h => .ok (decide (l ≤ h) && decide (l ≠ 0))

/-- The `for m := range ss.members` loop of sufficientCoherence,
accumulating the counted stake (the counter sums the stake of every
member whose test holds). -/
def coherePass (nodes : List (Peer × Nat)) (e1? e2? : Option SEvent) : List (Peer × Nat) → ERes Nat
  | [] => .ok 0
  | (m, w) :: rest =>
    match coherentCond e1? e2? (slotOf nodes m) with
    | .fail er => .fail er
    | .ok b =>
      match coherePass nodes e1? e2? rest with
      | .fail er => .fail er
      | .ok s => .ok (if b then w + s else s)

/-- Total stake of the validator set. -/
def totalStake : List (Peer × Nat) → Nat
  | [] => 0
  | (_, w) :: rest => w + totalStake rest

/-- Modelled from the spec: the weighted majority threshold of the
validator set (internal.Members and its counter are not part of the two
source files).  Per the spec and the comment above sufficientCoherence,
the counted stake must exceed 2/3 of the total stake. -/
def hasMajority (total s : Nat) : Bool :=
  decide (2 * total < 3 * s)

/-- sufficientCoherence from strongly.go: count, over the bound member
set, the stake of members whose slot satisfies the test, then apply the
majority threshold. -/
def sufficientCoherence (st : Strongly) (e1? e2? : Option SEvent) : ERes Bool :=
  match coherePass st.nodes e1? e2? st.members with
  | .fail er => .fail er
  | .ok s => .ok (hasMajority (totalStake st.members) s)

/-- Strongly.See: look both hashes up (a missing hash is Go's nil) and
evaluate sufficientCoherence on the two pointers. -/
def Strongly.See (st : Strongly) (who whom : EH) : ERes Bool :=
  sufficientCoherence st (lookupE st.events who) (lookupE st.events whom)

/-!
Emitter embedding (src/gossip/emitter.go).  Transactions are identified by
their gas cost (the only field addTxs reads); the pending pool is the list
of per-sender groups in iteration order.  Gas values are uint64: sums and
differences wrap mod 2^64 exactly where Go wraps.  The serialized size
`e.CalcSize()` and the bounds MaxEventSize / MaxGasPowerUsed live outside
the two source files and are taken as parameters.
-/

/-- The mutable event state that addTxs manipulates. -/
structure PackEvent where
  GasPowerUsed : Nat
  GasPowerLeft : Nat
  Transactions : List Nat
  deriving DecidableEq, Repr

/-- The inner `for _, tx := range txs` loop of addTxs: when the candidate
transaction's gas is strictly below the remaining GasPowerLeft and the
accumulated GasPowerUsed plus its gas stays strictly below the cap, the
gas is accounted — and `append(e.Transactions, txs...)` appends the WHOLE
sender group, not the single transaction. -/
def packGroup (maxGasUsed : Nat) (group : List Nat) : List Nat → PackEvent → PackEvent
  | [], e => e
  | tx :: rest, e =>
    if tx < e.GasPowerLeft ∧ (e.GasPowerUsed + tx) % 2 ^ 64 < maxGasUsed then
      packGroup maxGasUsed group rest
        { GasPowerUsed := (e.GasPowerUsed + tx) % 2 ^ 64,
          GasPowerLeft := e.GasPowerLeft - tx,
          Transactions := e.Transactions ++ group }
    else
      packGroup maxGasUsed group rest e

/-- The outer `for _, txs := range poolTxs` loop of addTxs. -/
def packTxs (maxGasUsed : Nat) : List (List Nat) → PackEvent → PackEvent
  | [], e => e
  | group :: pool, e => packTxs maxGasUsed pool (packGroup maxGasUsed group group e)

/-- One step of the spill loop: pop the last transaction and refund its
gas (uint64 arithmetic, so both updates wrap mod 2^64). -/
def popRefund (e : PackEvent) : PackEvent :=
  match e.Transactions.getLast? with
  | none => e
  | some g =>
    { GasPowerUsed := (e.GasPowerUsed + (2 ^ 64 - g % 2 ^ 64)) % 2 ^ 64,
      GasPowerLeft := (e.GasPowerLeft + g) % 2 ^ 64,
      Transactions := e.Transactions.dropLast }

/-- The spill loop of addTxs with fuel; each iteration pops exactly one
transaction, so `e.Transactions.length` units of fuel always reach the
loop's exit condition. -/
def spillAux (calcSize : PackEvent → Nat) (maxSize : Nat) : Nat → PackEvent → PackEvent
  | 0, e => e
  | fuel + 1, e =>
    if maxSize < calcSize e ∧ e.Transactions ≠ [] then
      spillAux calcSize maxSize fuel (popRefund e)
    else e

/-- The `for uint64(e.CalcSize()) > basic_check.MaxEventSize && len(e.Transactions) > 0`
loop of addTxs: pop transactions from the tail, refunding their gas, until
the size bound holds or the list is empty. -/
def spillTxs (calcSize : PackEvent → Nat) (maxSize : Nat) (e : PackEvent) : PackEvent :=
  spillAux calcSize maxSize e.Transactions.length e

/-- addTxs from emitter.go: greedy packing over the pool, then the
size-based spill.  `maxGasUsed` is the cap the code obtains once from
maxGasPowerToUse. -/
def addTxs (calcSize : PackEvent → Nat) (maxSize maxGasUsed : Nat)
    (pool : List (List Nat)) (e : PackEvent) : PackEvent :=
  spillTxs calcSize maxSize (packTxs maxGasUsed pool e)

/-- Gas-power thresholds of the dag config read by the emitter. -/
structure GasPowerCfg where
  noTxsThreshold : Nat
  emergencyThreshold : Nat
  deriving DecidableEq, Repr

/-- Emit-interval configuration (time.Duration, i.e. int64 nanoseconds). -/
structure EmitterCfg where
  minEmitInterval : Int
  maxEmitInterval : Int
  deriving DecidableEq, Repr

/-- Go int64 wrap-around. -/
def i64 (x : Int) : Int :=
  (x + 2 ^ 63) % 2 ^ 64 - 2 ^ 63

/-- The adjusted minimum emit interval of the low-power pacing branch of
isAllowedToEmit, sliding from MaxEmitInterval at zero power down to
MinEmitInterval at the threshold; Go's int64 arithmetic with truncating
division.  Go evaluates this inside the pacing branch, and with a zero
NoTxsThreshold the division panics with an integer divide by zero — that
error path is modelled in isAllowedToEmit itself, so this definition is
only reached with a non-zero divisor, where Int.tdiv matches Go. -/
def adjustedEmitInterval (gp : GasPowerCfg) (cfg : EmitterCfg) (gasPowerLeft : Nat) : Int :=
  i64 (cfg.maxEmitInterval -
    Int.tdiv (i64 (i64 (cfg.maxEmitInterval - cfg.minEmitInterval) * i64 (gasPowerLeft : Int)))
      (i64 (gp.noTxsThreshold : Int)))

/-- isAllowedToEmit from emitter.go.  First the low-power pacing check:
if GasPowerLeft is at most NoTxsThreshold, compute the adjusted interval —
a zero NoTxsThreshold makes that computation divide by zero, a Go panic
(modelled as `none`) — and deny when the elapsed time since the previous
emission is below it.  Then the emergency check: if GasPowerLeft is at
most EmergencyThreshold, deny unless a self-parent exists and
GasPowerLeft is at least the self-parent's — but when no self-parent
exists, the warning log dereferences the nil self-parent header (a Go
panic, modelled as `none`). -/
def isAllowedToEmit (gp : GasPowerCfg) (cfg : EmitterCfg) (gasPowerLeft : Nat)
    (claimedTime prevEmittedTime : Int) (selfParent : Option Nat) : Option Bool :=
  if gasPowerLeft ≤ gp.noTxsThreshold ∧ gp.noTxsThreshold = 0 then
    none
  else if gasPowerLeft ≤ gp.noTxsThreshold ∧
      i64 (claimedTime - prevEmittedTime) < adjustedEmitInterval gp cfg gasPowerLeft then
    some false
  else if gasPowerLeft ≤ gp.emergencyThreshold then
    match selfParent with
    | none => none
    | some spLeft => if spLeft ≤ gasPowerLeft then some true else some false
  else
    some true

/-!
Spec-side definitions, written from the words of the specification, to be
compared with the code-side definitions above.
-/

/-- Written from the spec's words (claim C1): the weighted count, over the
given validators, of those whose slot `n` satisfies
`event2.LowestSees[n] != 0 AND event2.LowestSees[n] <= event1.HighestSeen[n]`. -/
def specCount (nodes : List (Peer × Nat)) (a b : SEvent) : List (Peer × Nat) → Nat
  | [] => 0
  | (m, w) :: rest =>
    (if b.LowestSees.getD (slotOf nodes m) 0 ≠ 0 ∧
        b.LowestSees.getD (slotOf nodes m) 0 ≤ a.HighestSeen.getD (slotOf nodes m) 0
     then w else 0) + specCount nodes a b rest

/-- Written from the spec's words: event `a` strongly-sees event `b` iff
the weighted count over the bound validator set reaches the weighted
majority threshold. -/
def specStronglySee (st : Strongly) (a b : SEvent) : Bool :=
  hasMajority (totalStake st.members) (specCount st.nodes a b st.members)

/-!
Notions used to reason about the back-propagation walk: how one Add call
may change an already-stored ancestry record, and the DAG ordering of the
event map that every state reachable through Add enjoys (a parent is
always inserted before its children).
-/

/-- How a single Add call (whose new event has sequence number `ref`) may
change one stored ancestry record: every field except LowestSees is
untouched, and a LowestSees slot either keeps its value or is set to `ref`
under exactly the acceptance condition of setLowestSeesIfMin — the slot
was 0, the old value was larger than `ref`, or the slot is the record's
own creator slot and its value was still at most the record's own Index. -/
def LowStep (ref : Nat) (r rp : SEvent) : Prop :=
  rp.Creator = r.Creator ∧ rp.Index = r.Index ∧ rp.CreatorN = r.CreatorN ∧
  rp.Parents = r.Parents ∧ rp.HighestSeen = r.HighestSeen ∧
  rp.LowestSees.length = r.LowestSees.length ∧
  ∀ n, rp.LowestSees.getD n 0 = r.LowestSees.getD n 0 ∨
    (rp.LowestSees.getD n 0 = ref ∧
      (r.LowestSees.getD n 0 = 0 ∨ ref < r.LowestSees.getD n 0 ∨
       (n = r.CreatorN ∧ r.LowestSees.getD n 0 ≤ r.Index)))

/-- Pairwise lifting of `LowStep` to whole event maps: keys and order are
unchanged and every stored record evolved by a `LowStep`. -/
def EvsStep (ref : Nat) (evs evs2 : List (EH × SEvent)) : Prop :=
  List.Forall₂ (fun kv kv2 => kv.1 = kv2.1 ∧ LowStep ref kv.2 kv2.2) evs evs2

/-- The keys of the event map, in insertion order. -/
def keysOf (evs : List (EH × SEvent)) : List EH :=
  evs.map Prod.fst

/-- Position of the first occurrence of a key. -/
def rankOf : List EH → EH → Nat
  | [], _ => 0
  | k :: ks, h => if k = h then 0 else rankOf ks h + 1

/-- The event map is DAG-ordered: every stored record's non-zero parent is
itself stored, strictly earlier.  Add preserves this by construction
(parents must already be present, the new record is appended). -/
def ParentsEarlier (evs : List (EH × SEvent)) : Prop :=
  ∀ kv ∈ evs, ∀ po ∈ kv.2.Parents, ∀ p : EH, po = some p →
    p ∈ keysOf evs ∧ rankOf (keysOf evs) p < rankOf (keysOf evs) kv.1

/-!
Helper lemmas about the event map and the one-Add evolution relation.
-/

theorem lookupE_mem {evs : List (EH × SEvent)} {h : EH} {r : SEvent}
    (hl : lookupE evs h = some r) : (h, r) ∈ evs := by
  induction evs with
  | nil => simp [lookupE] at hl
  | cons kv rest ih =>
    obtain ⟨k, v⟩ := kv
    by_cases hk : k = h
    · simp only [lookupE, if_pos hk] at hl
      cases hl
      subst hk
      exact List.mem_cons_self _ _
    · simp only [lookupE, if_neg hk] at hl
      exact List.mem_cons_of_mem _ (ih hl)

theorem mem_keys_lookup {evs : List (EH × SEvent)} {h : EH}
    (hm : h ∈ keysOf evs) : ∃ r, lookupE evs h = some r := by
  induction evs with
  | nil => simp [keysOf] at hm
  | cons kv rest ih =>
    by_cases hk : kv.1 = h
    · exact ⟨kv.2, by simp [lookupE, hk]⟩
    · simp [keysOf] at hm
      rcases hm with hm | hm
      · exact absurd hm.symm hk
      · rcases ih (by simpa [keysOf] using hm) with ⟨r, hr⟩
        exact ⟨r, by simp [lookupE, hk, hr]⟩

theorem lookupE_append {evs tl : List (EH × SEvent)} {h : EH} {r : SEvent}
    (hl : lookupE evs h = some r) : lookupE (evs ++ tl) h = some r := by
  induction evs with
  | nil => simp [lookupE] at hl
  | cons kv rest ih =>
    by_cases hk : kv.1 = h
    · simp [lookupE, hk] at hl ⊢
      exact hl
    · simp [lookupE, hk] at hl ⊢
      exact ih hl

theorem lowStep_refl (ref : Nat) (r : SEvent) : LowStep ref r r := by
  refine ⟨rfl, rfl, rfl, rfl, rfl, rfl, ?_⟩
  intro n
  exact Or.inl rfl

theorem lowStep_trans {ref : Nat} {a b c : SEvent}
    (h1 : LowStep ref a b) (h2 : LowStep ref b c) : LowStep ref a c := by
  obtain ⟨c1, i1, n1, p1, hh1, l1, f1⟩ := h1
  obtain ⟨c2, i2, n2, p2, hh2, l2, f2⟩ := h2
  refine ⟨c2.trans c1, i2.trans i1, n2.trans n1, p2.trans p1, hh2.trans hh1, l2.trans l1, ?_⟩
  intro n
  rcases f2 n with he | ⟨hr, hc⟩
  · rw [he]
    exact f1 n
  · rcases f1 n with he1 | ⟨hr1, hc1⟩
    · refine Or.inr ⟨hr, ?_⟩
      rw [he1, n1, i1] at hc
      exact hc
    · exact Or.inr ⟨hr, hc1⟩

theorem setLowestSeesIfMin_lowStep {e e2 : SEvent} {node ref : Nat} {acc : Bool}
    (h : setLowestSeesIfMin e node ref = .ok (e2, acc)) : LowStep ref e e2 := by
  unfold setLowestSeesIfMin at h
  cases hg : e.LowestSees.get? node with
  | none => rw [hg] at h; exact absurd h (by simp)
  | some v =>
    rw [hg] at h
    have hvd : e.LowestSees.getD node 0 = v := by
      rw [List.getD_eq_get?, hg]
      rfl
    by_cases hc : v = 0 ∨ ref < v ∨ (node = e.CreatorN ∧ v ≤ e.Index)
    · simp only [if_pos hc] at h
      have he2 : e2 = { e with LowestSees := e.LowestSees.set node ref } := by
        cases h; rfl
      subst he2
      refine ⟨rfl, rfl, rfl, rfl, rfl, by simp [List.length_set], ?_⟩
      intro n
      by_cases hn : n = node
      · subst hn
        have hlen : n < e.LowestSees.length := by
          rcases List.get?_eq_some.mp hg with ⟨hlt2, _⟩
          exact hlt2
        right
        constructor
        · show (e.LowestSees.set n ref).getD n 0 = ref
          rw [List.getD_eq_get?, List.get?_eq_getElem?]
          simp [List.getElem?_set_self, hlen]
        · rw [hvd]
          exact hc
      · left
        show (e.LowestSees.set node ref).getD n 0 = e.LowestSees.getD n 0
        rw [List.getD_eq_get?, List.getD_eq_get?, List.get?_set_ne _ _ (fun he => hn he.symm)]
    · simp only [if_neg hc] at h
      have he2 : e2 = e := by cases h; rfl
      rw [he2]
      exact lowStep_refl ref e

theorem evsStep_refl (ref : Nat) (evs : List (EH × SEvent)) : EvsStep ref evs evs := by
  induction evs with
  | nil => exact List.Forall₂.nil
  | cons kv rest ih => exact List.Forall₂.cons ⟨rfl, lowStep_refl ref kv.2⟩ ih

theorem evsStep_trans {ref : Nat} {a b c : List (EH × SEvent)}
    (h1 : EvsStep ref a b) (h2 : EvsStep ref b c) : EvsStep ref a c := by
  induction h1 generalizing c with
  | nil =>
    cases h2
    exact List.Forall₂.nil
  | cons hab h1' ih =>
    cases h2 with
    | cons hbc h2' =>
      exact List.Forall₂.cons ⟨hab.1.trans hbc.1, lowStep_trans hab.2 hbc.2⟩ (ih h2')

theorem evsStep_keys {ref : Nat} {a b : List (EH × SEvent)}
    (h : EvsStep ref a b) : keysOf b = keysOf a := by
  induction h with
  | nil => rfl
  | cons hab h' ih =>
    simp only [keysOf, List.map_cons] at ih ⊢
    rw [ih, hab.1]

theorem evsStep_length {ref : Nat} {a b : List (EH × SEvent)}
    (h : EvsStep ref a b) : b.length = a.length :=
  (List.Forall₂.length_eq h).symm

theorem evsStep_mem_right {ref : Nat} {a b : List (EH × SEvent)} {z : EH × SEvent}
    (h : EvsStep ref a b) (hz : z ∈ b) : ∃ y ∈ a, y.1 = z.1 ∧ LowStep ref y.2 z.2 := by
  induction h with
  | nil => simp at hz
  | cons hab h' ih =>
    rcases List.mem_cons.mp hz with hz | hz
    · subst hz
      exact ⟨_, List.mem_cons_self _ _, hab⟩
    · rcases ih hz with ⟨y, hy, hy2⟩
      exact ⟨y, List.mem_cons_of_mem _ hy, hy2⟩

theorem evsStep_lookup {ref : Nat} {a b : List (EH × SEvent)}
    (h : EvsStep ref a b) : ∀ {k : EH} {r : SEvent}, lookupE a k = some r →
      ∃ r2, lookupE b k = some r2 ∧ LowStep ref r r2 := by
  induction h with
  | nil => intro k r hr; simp [lookupE] at hr
  | cons hab h' ih =>
    intro k r hr
    rename_i x y _ _
    by_cases hk : x.1 = k
    · simp only [lookupE, if_pos hk] at hr
      cases hr
      exact ⟨y.2, by simp [lookupE, hab.1 ▸ hk], hab.2⟩
    · simp only [lookupE, if_neg hk] at hr
      rcases ih hr with ⟨r2, hr2, hs⟩
      exact ⟨r2, by simp [lookupE, hab.1 ▸ hk, hr2], hs⟩

theorem evsStep_lookup_rev {ref : Nat} {a b : List (EH × SEvent)}
    (h : EvsStep ref a b) : ∀ {k : EH} {r2 : SEvent}, lookupE b k = some r2 →
      ∃ r, lookupE a k = some r ∧ LowStep ref r r2 := by
  induction h with
  | nil => intro k r2 hr; simp [lookupE] at hr
  | cons hab h' ih =>
    intro k r2 hr
    rename_i x y _ _
    by_cases hk : y.1 = k
    · simp only [lookupE, if_pos hk] at hr
      cases hr
      exact ⟨x.2, by simp [lookupE, hab.1.trans hk], hab.2⟩
    · simp only [lookupE, if_neg hk] at hr
      rcases ih hr with ⟨r, hr0, hs⟩
      have hxk : ¬ x.1 = k := by rw [hab.1]; exact hk
      exact ⟨r, by simp [lookupE, hxk, hr0], hs⟩

theorem updateE_evsStep {ref : Nat} {evs : List (EH × SEvent)} {h : EH} {r v : SEvent}
    (hl : lookupE evs h = some r) (hs : LowStep ref r v) :
    EvsStep ref evs (updateE evs h v) := by
  induction evs with
  | nil => simp [lookupE] at hl
  | cons kv rest ih =>
    by_cases hk : kv.1 = h
    · simp only [lookupE, if_pos hk] at hl
      cases hl
      simp only [updateE, if_pos hk]
      exact List.Forall₂.cons ⟨hk, hs⟩ (evsStep_refl ref rest)
    · simp only [lookupE, if_neg hk] at hl
      simp only [updateE, if_neg hk]
      exact List.Forall₂.cons ⟨rfl, lowStep_refl ref kv.2⟩ (ih hl)

theorem processItems_step {node ref : Nat} :
    ∀ {wl : List EH} {evs evs2 : List (EH × SEvent)} {pushed : List EH},
      processItems node ref wl evs = .ok (evs2, pushed) →
      EvsStep ref evs evs2 ∧
      ∀ p ∈ pushed, ∃ h ∈ wl, ∃ r, lookupE evs h = some r ∧ some p ∈ r.Parents := by
  intro wl
  induction wl with
  | nil =>
    intro evs evs2 pushed h
    simp only [processItems] at h
    cases h
    exact ⟨evsStep_refl ref evs, by simp⟩
  | cons h0 rest ih =>
    intro evs evs2 pushed h
    cases hl : lookupE evs h0 with
    | none =>
      simp only [processItems, hl] at h
      exact absurd h (by simp)
    | some ev =>
      cases hs : setLowestSeesIfMin ev node ref with
      | fail er =>
        simp only [processItems, hl, hs] at h
        exact absurd h (by simp)
      | ok pr =>
        obtain ⟨ev2, acc⟩ := pr
        cases hp : processItems node ref rest (updateE evs h0 ev2) with
        | fail er =>
          simp only [processItems, hl, hs, hp] at h
          exact absurd h (by simp)
        | ok out =>
          obtain ⟨evs3, pushed2⟩ := out
          simp only [processItems, hl, hs, hp, ERes.ok.injEq, Prod.mk.injEq] at h
          obtain ⟨he, hpu⟩ := h
          subst he
          subst hpu
          have hstep1 : EvsStep ref evs (updateE evs h0 ev2) :=
            updateE_evsStep hl (setLowestSeesIfMin_lowStep hs)
          rcases ih hp with ⟨hstep2, hpush2⟩
          refine ⟨evsStep_trans hstep1 hstep2, ?_⟩
          intro p hp2
          rcases List.mem_append.mp hp2 with hp2 | hp2
          · have hpar : some p ∈ ev2.Parents := by
              rcases acc with _ | _
              · simp at hp2
              · simp only [if_pos rfl] at hp2
                rcases List.mem_filterMap.mp hp2 with ⟨a, ha, ha2⟩
                simp only [id] at ha2
                rw [ha2] at ha
                exact ha
            have hpp : ev2.Parents = ev.Parents :=
              (setLowestSeesIfMin_lowStep hs).2.2.2.1
            exact ⟨h0, List.mem_cons_self _ _, ev, hl, hpp ▸ hpar⟩
          · rcases hpush2 p hp2 with ⟨h1, hh1, r1, hr1, hpar1⟩
            rcases evsStep_lookup_rev hstep1 hr1 with ⟨r0, hr0, hls⟩
            refine ⟨h1, List.mem_cons_of_mem _ hh1, r0, hr0, ?_⟩
            rw [hls.2.2.2.1] at hpar1
            exact hpar1

theorem processItems_ok {node ref : Nat} :
    ∀ {wl : List EH} {evs : List (EH × SEvent)},
      (∀ h ∈ wl, h ∈ keysOf evs) →
      (∀ kv ∈ evs, node < kv.2.LowestSees.length) →
      ∃ out, processItems node ref wl evs = .ok out := by
  intro wl
  induction wl with
  | nil =>
    intro evs _ _
    exact ⟨(evs, []), rfl⟩
  | cons h0 rest ih =>
    intro evs hkeys hrange
    rcases mem_keys_lookup (hkeys h0 (List.mem_cons_self _ _)) with ⟨ev, hl⟩
    have hmem : (h0, ev) ∈ evs := lookupE_mem hl
    have hlen : node < ev.LowestSees.length := hrange (h0, ev) hmem
    have hg : ev.LowestSees.get? node = some (ev.LowestSees.get ⟨node, hlen⟩) :=
      List.get?_eq_some.mpr ⟨hlen, rfl⟩
    have hset : ∃ pr, setLowestSeesIfMin ev node ref = .ok pr := by
      simp only [setLowestSeesIfMin, hg]
      split
      · exact ⟨_, rfl⟩
      · exact ⟨_, rfl⟩
    rcases hset with ⟨⟨ev2, acc⟩, hs⟩
    have hstep1 : EvsStep ref evs (updateE evs h0 ev2) :=
      updateE_evsStep hl (setLowestSeesIfMin_lowStep hs)
    have hkeys2 : ∀ h ∈ rest, h ∈ keysOf (updateE evs h0 ev2) := by
      intro h hh
      rw [evsStep_keys hstep1]
      exact hkeys h (List.mem_cons_of_mem _ hh)
    have hrange2 : ∀ kv ∈ updateE evs h0 ev2, node < kv.2.LowestSees.length := by
      intro kv hkv
      rcases evsStep_mem_right hstep1 hkv with ⟨y, hy, _, hls⟩
      rw [hls.2.2.2.2.2.1]
      exact hrange y hy
    rcases ih hkeys2 hrange2 with ⟨⟨evs3, pushed2⟩, hp⟩
    exact ⟨(evs3, (if acc then ev2.Parents.filterMap id else []) ++ pushed2),
      by simp only [processItems, hl, hs, hp]⟩

theorem lowestLoop_sound {node ref : Nat} :
    ∀ {fuel : Nat} {evs evs2 : List (EH × SEvent)} {wl : List EH},
      lowestLoop node ref fuel evs wl = .ok evs2 → EvsStep ref evs evs2 := by
  intro fuel
  induction fuel with
  | zero =>
    intro evs evs2 wl h
    simp only [lowestLoop] at h
    exact absurd h (by simp)
  | succ f ih =>
    intro evs evs2 wl h
    cases hp : processItems node ref wl evs with
    | fail er =>
      simp only [lowestLoop, hp] at h
      exact absurd h (by simp)
    | ok out =>
      obtain ⟨evs1, next⟩ := out
      simp only [lowestLoop, hp] at h
      have hstep1 : EvsStep ref evs evs1 := (processItems_step hp).1
      by_cases hn : next.isEmpty
      · rw [if_pos hn] at h
        cases h
        exact hstep1
      · rw [if_neg hn] at h
        exact evsStep_trans hstep1 (ih h)

theorem rankOf_lt_length {ks : List EH} {h : EH} (hm : h ∈ ks) :
    rankOf ks h < ks.length := by
  induction ks with
  | nil => simp at hm
  | cons k rest ih =>
    by_cases hk : k = h
    · simp [rankOf, hk]
    · rcases List.mem_cons.mp hm with hm | hm
      · exact absurd hm.symm hk
      · simp only [rankOf, if_neg hk, List.length_cons]
        exact Nat.succ_lt_succ (ih hm)

theorem parentsEarlier_evsStep {ref : Nat} {evs evs2 : List (EH × SEvent)}
    (hstep : EvsStep ref evs evs2) (hpe : ParentsEarlier evs) : ParentsEarlier evs2 := by
  intro kv2 hkv2 po hpo p hp
  rcases evsStep_mem_right hstep hkv2 with ⟨kv, hkv, hkey, hls⟩
  rw [hls.2.2.2.1] at hpo
  rcases hpe kv hkv po hpo p hp with ⟨hmem, hrank⟩
  rw [evsStep_keys hstep, ← hkey]
  exact ⟨hmem, hrank⟩

theorem lowestLoop_ok {node ref : Nat} :
    ∀ (k : Nat) {fuel : Nat} {evs : List (EH × SEvent)} {wl : List EH},
      ParentsEarlier evs →
      (∀ kv ∈ evs, node < kv.2.LowestSees.length) →
      (∀ h ∈ wl, h ∈ keysOf evs ∧ rankOf (keysOf evs) h < k) →
      k < fuel →
      ∃ evs2, lowestLoop node ref fuel evs wl = .ok evs2 := by
  intro k
  induction k with
  | zero =>
    intro fuel evs wl _ _ hwl hf
    cases wl with
    | cons h0 rest => exact absurd (hwl h0 (List.mem_cons_self _ _)).2 (by simp)
    | nil =>
      obtain ⟨f, rfl⟩ : ∃ f, fuel = f + 1 := ⟨fuel - 1, by omega⟩
      exact ⟨evs, by simp [lowestLoop, processItems]⟩
  | succ k ih =>
    intro fuel evs wl hpe hrange hwl hf
    obtain ⟨f, rfl⟩ : ∃ f, fuel = f + 1 := ⟨fuel - 1, by omega⟩
    rcases @processItems_ok node ref wl evs
        (fun h hh => (hwl h hh).1) hrange with ⟨⟨evs1, next⟩, hp⟩
    rcases processItems_step hp with ⟨hstep, hpush⟩
    by_cases hn : next.isEmpty
    · exact ⟨evs1, by simp only [lowestLoop, hp, if_pos hn]⟩
    · have hkeys1 : keysOf evs1 = keysOf evs := evsStep_keys hstep
      have hpe1 : ParentsEarlier evs1 := parentsEarlier_evsStep hstep hpe
      have hrange1 : ∀ kv ∈ evs1, node < kv.2.LowestSees.length := by
        intro kv hkv
        rcases evsStep_mem_right hstep hkv with ⟨y, hy, _, hls⟩
        rw [hls.2.2.2.2.2.1]
        exact hrange y hy
      have hwl1 : ∀ h ∈ next, h ∈ keysOf evs1 ∧ rankOf (keysOf evs1) h < k := by
        intro p hpn
        rcases hpush p hpn with ⟨h1, hh1, r1, hr1, hpar1⟩
        have hkv : (h1, r1) ∈ evs := lookupE_mem hr1
        rcases hpe (h1, r1) hkv (some p) hpar1 p rfl with ⟨hmem, hrank⟩
        have hrank2 : rankOf (keysOf evs) p < rankOf (keysOf evs) h1 := hrank
        have hrk1 : rankOf (keysOf evs) h1 < k + 1 := (hwl h1 hh1).2
        rw [hkeys1]
        exact ⟨hmem, by omega⟩
      rcases @ih f evs1 next hpe1 hrange1 hwl1 (by omega) with ⟨evs2, hrec⟩
      exact ⟨evs2, by simp only [lowestLoop, hp, if_neg hn, hrec]⟩

theorem fillEventRefsLoop_step {node ref : Nat} :
    ∀ {ps : List (Option EH)} {evs evs2 : List (EH × SEvent)} {ev ev2 : SEvent},
      fillEventRefsLoop node ref ps evs ev = .ok (evs2, ev2) → EvsStep ref evs evs2 := by
  intro ps
  induction ps with
  | nil =>
    intro evs evs2 ev ev2 h
    simp only [fillEventRefsLoop] at h
    cases h
    exact evsStep_refl ref evs
  | cons po rest ih =>
    intro evs evs2 ev ev2 h
    cases po with
    | none =>
      simp only [fillEventRefsLoop] at h
      exact ih h
    | some p =>
      cases hu : updateAllLowestSees evs p node ref with
      | fail er =>
        simp only [fillEventRefsLoop, hu] at h
        exact absurd h (by simp)
      | ok evs1 =>
        cases hl : lookupE evs1 p with
        | none =>
          simp only [fillEventRefsLoop, hu, hl] at h
          exact absurd h (by simp)
        | some parent =>
          cases hh : updHigh ev.HighestSeen parent.HighestSeen with
          | fail er =>
            simp only [fillEventRefsLoop, hu, hl, hh] at h
            exact absurd h (by simp)
          | ok hs =>
            simp only [fillEventRefsLoop, hu, hl, hh] at h
            exact evsStep_trans (lowestLoop_sound hu) (ih h)

theorem fillEventRefs_step {evs evs2 : List (EH × SEvent)} {ev ev2 : SEvent}
    (h : fillEventRefs evs ev = .ok (evs2, ev2)) : EvsStep ev.Index evs evs2 := by
  cases h1 : setAt ev.LowestSees ev.CreatorN ev.Index with
  | fail er =>
    simp only [fillEventRefs, h1] at h
    exact absurd h (by simp)
  | ok ls =>
    cases h2 : setAt ev.HighestSeen ev.CreatorN ev.Index with
    | fail er =>
      simp only [fillEventRefs, h1, h2] at h
      exact absurd h (by simp)
    | ok hs =>
      simp only [fillEventRefs, h1, h2] at h
      exact fillEventRefsLoop_step h

theorem Add_evsStep {st : Strongly} {e : InEvent} {st2 : Strongly}
    (h : st.Add e = .ok st2) :
    ∃ evs2 ev2, st2.events = evs2 ++ [(e.hash, ev2)] ∧ EvsStep e.Index st.events evs2 := by
  cases hd : lookupE st.events e.hash with
  | some r =>
    simp only [Strongly.Add, hd] at h
    exact absurd h (by simp)
  | none =>
    simp only [Strongly.Add, hd] at h
    cases hf : fillEventRefs st.events
        { Creator := e.Creator, Index := e.Index, Parents := e.Parents,
          CreatorN := (lookupNode st.nodes e.Creator).getD st.nodes.length,
          LowestSees := List.replicate st.members.length 0,
          HighestSeen := List.replicate st.members.length 0 } with
    | fail er =>
      rw [hf] at h
      exact absurd h (by simp)
    | ok out =>
      obtain ⟨evs2, ev2⟩ := out
      rw [hf] at h
      cases h
      exact ⟨evs2, ev2, rfl, fillEventRefs_step hf⟩

/-- C4 (amended): across any successful Add, every already-stored ancestry
record keeps its HighestSeen array unchanged, and each LowestSees slot
either keeps its value or is set to the new event's Index — which the
acceptance condition allows when the slot was 0, when it strictly
decreases, or, at the record's own creator slot, when the old value was
still at most the record's own Index (this last case can increase a
non-zero entry, refuting the claim as stated). -/
theorem add_step_existing_records (st : Strongly) (e : InEvent) (st2 : Strongly)
    (hAdd : st.Add e = .ok st2) (h : EH) (r : SEvent)
    (hr : lookupE st.events h = some r) :
    ∃ r2, lookupE st2.events h = some r2 ∧ LowStep e.Index r r2 := by
  rcases Add_evsStep hAdd with ⟨evs2, ev2, hst, hstep⟩
  rcases evsStep_lookup hstep hr with ⟨r2, hr2, hls⟩
  refine ⟨r2, ?_, hls⟩
  rw [hst]
  exact lookupE_append hr2

/-- Witness for C4's amended theorem: a one-validator chain; inserting the
second event of the same creator relates the first event's stored record
to its updated form. -/
theorem add_step_existing_records_witness :
    ∃ r2, lookupE ((⟨[(0, 1)], [(0, 0)],
        [(1, ⟨0, 1, [], 0, [2], [1]⟩), (2, ⟨0, 2, [some 1], 0, [2], [2]⟩)]⟩ : Strongly)).events 1 =
        some r2 ∧ LowStep 2 ⟨0, 1, [], 0, [1], [1]⟩ r2 :=
  add_step_existing_records
    ⟨[(0, 1)], [(0, 0)], [(1, ⟨0, 1, [], 0, [1], [1]⟩)]⟩ ⟨2, 0, 2, [some 1]⟩
    ⟨[(0, 1)], [(0, 0)], [(1, ⟨0, 1, [], 0, [2], [1]⟩), (2, ⟨0, 2, [some 1], 0, [2], [2]⟩)]⟩
    (by decide) 1 ⟨0, 1, [], 0, [1], [1]⟩ (by decide)

/-- C4 (counterexample): after Add of event 1 (creator 0, seq 1) its
record's LowestSees entry for slot 0 is the non-zero value 1; the later
Add of event 2 (same creator, seq 2, child of event 1) resets that entry
upward to 2, refuting that a non-zero LowestSees entry only ever decreases
or stays equal. -/
theorem lowest_sees_upward_counterexample :
    Strongly.Add (Strongly.Reset [(0, 1)]) ⟨1, 0, 1, []⟩ =
      .ok ⟨[(0, 1)], [(0, 0)], [(1, ⟨0, 1, [], 0, [1], [1]⟩)]⟩ ∧
    Strongly.Add ⟨[(0, 1)], [(0, 0)], [(1, ⟨0, 1, [], 0, [1], [1]⟩)]⟩ ⟨2, 0, 2, [some 1]⟩ =
      .ok ⟨[(0, 1)], [(0, 0)], [(1, ⟨0, 1, [], 0, [2], [1]⟩), (2, ⟨0, 2, [some 1], 0, [2], [2]⟩)]⟩ ∧
    (lookupE [(1, (⟨0, 1, [], 0, [1], [1]⟩ : SEvent))] 1).map SEvent.LowestSees = some [1] ∧
    (lookupE [(1, (⟨0, 1, [], 0, [2], [1]⟩ : SEvent)), (2, ⟨0, 2, [some 1], 0, [2], [2]⟩)] 1).map
      SEvent.LowestSees = some [2] ∧ (0 : Nat) < 1 ∧ 1 < 2 := by
  decide

/-- C5: the back-propagation walk of updateAllLowestSees terminates — it
returns a final map (never the out-of-fuel marker) — on every event map
that is DAG-ordered (each record's parents stored strictly earlier), with
the start hash present and the written slot in range of every record. -/
theorem update_all_lowest_sees_terminates (evs : List (EH × SEvent)) (p : EH) (node ref : Nat)
    (hpe : ParentsEarlier evs)
    (hrange : ∀ kv ∈ evs, node < kv.2.LowestSees.length)
    (hp : p ∈ keysOf evs) :
    ∃ evs2, updateAllLowestSees evs p node ref = .ok evs2 := by
  have hrank : rankOf (keysOf evs) p < evs.length := by
    have h := rankOf_lt_length hp
    simpa [keysOf] using h
  have hwl : ∀ h ∈ [p], h ∈ keysOf evs ∧ rankOf (keysOf evs) h < rankOf (keysOf evs) p + 1 := by
    intro h hh
    simp only [List.mem_singleton] at hh
    subst hh
    exact ⟨hp, by omega⟩
  simpa only [updateAllLowestSees] using
    lowestLoop_ok (rankOf (keysOf evs) p + 1) hpe hrange hwl (by omega)

/-- Witness for C5: the walk on a concrete one-event map completes. -/
theorem update_all_lowest_sees_terminates_witness :
    ∃ evs2, updateAllLowestSees [(1, ⟨0, 1, [], 0, [1], [1]⟩)] 1 0 2 = .ok evs2 :=
  update_all_lowest_sees_terminates [(1, ⟨0, 1, [], 0, [1], [1]⟩)] 1 0 2
    (by
      intro kv hkv po hpo
      simp only [List.mem_singleton] at hkv
      subst hkv
      simp at hpo)
    (by decide) (by decide)

theorem get?_eq_some_getD {l : List Nat} {n : Nat} (h : n < l.length) :
    l.get? n = some (l.getD n 0) := by
  rw [List.getD_eq_get?]
  cases e : l.get? n with
  | none =>
    have := List.get?_eq_none.mp e
    omega
  | some v => rfl

theorem coherePass_spec {nodes : List (Peer × Nat)} {a b : SEvent} :
    ∀ {ms : List (Peer × Nat)},
      (∀ kv ∈ ms, slotOf nodes kv.1 < b.LowestSees.length ∧
        slotOf nodes kv.1 < a.HighestSeen.length) →
      coherePass nodes (some a) (some b) ms = .ok (specCount nodes a b ms) := by
  intro ms
  induction ms with
  | nil => intro _; rfl
  | cons kv rest ih =>
    intro hall
    obtain ⟨m, w⟩ := kv
    obtain ⟨hbl, hah⟩ := hall (m, w) (List.mem_cons_self _ _)
    obtain ⟨l, hbg⟩ : ∃ l, b.LowestSees.get? (slotOf nodes m) = some l :=
      ⟨_, get?_eq_some_getD hbl⟩
    obtain ⟨h, hag⟩ : ∃ h, a.HighestSeen.get? (slotOf nodes m) = some h :=
      ⟨_, get?_eq_some_getD hah⟩
    have hbd : b.LowestSees.getD (slotOf nodes m) 0 = l := by
      rw [List.getD_eq_get?, hbg]
      rfl
    have had : a.HighestSeen.getD (slotOf nodes m) 0 = h := by
      rw [List.getD_eq_get?, hag]
      rfl
    have hrest := ih (fun kv2 hkv2 => hall kv2 (List.mem_cons_of_mem _ hkv2))
    have hcond : coherentCond (some a) (some b) (slotOf nodes m) =
        .ok (decide (l ≤ h) && decide (l ≠ 0)) := by
      simp only [coherentCond, hbg, hag]
    have hstep : coherePass nodes (some a) (some b) ((m, w) :: rest) =
        .ok (if decide (l ≤ h) && decide (l ≠ 0) then w + specCount nodes a b rest
             else specCount nodes a b rest) := by
      simp only [coherePass, hcond, hrest]
    rw [hstep]
    simp only [specCount, hbd, had]
    by_cases h1 : l = 0
    · simp [h1]
    · by_cases h2 : l ≤ h
      · simp [h1, h2]
      · simp [h1, h2]

/-- C1: for indexed events (both hashes present, every member's slot in
range of the stored arrays), See returns exactly the spec-side verdict:
true iff the weighted count of members whose slot satisfies
`e2.LowestSees[n] != 0 and e2.LowestSees[n] <= e1.HighestSeen[n]` reaches
the weighted majority threshold of the bound validator set. -/
theorem see_eq_spec_majority (st : Strongly) (who whom : EH) (a b : SEvent)
    (ha : lookupE st.events who = some a) (hb : lookupE st.events whom = some b)
    (hs : ∀ kv ∈ st.members, slotOf st.nodes kv.1 < b.LowestSees.length ∧
      slotOf st.nodes kv.1 < a.HighestSeen.length) :
    st.See who whom = .ok (specStronglySee st a b) := by
  simp only [Strongly.See, ha, hb, sufficientCoherence, coherePass_spec hs, specStronglySee]

/-- Witness for C1 at a concrete one-event engine state. -/
theorem see_eq_spec_majority_witness :
    Strongly.See ⟨[(0, 1)], [(0, 0)], [(1, ⟨0, 1, [], 0, [1], [1]⟩)]⟩ 1 1 =
      .ok (specStronglySee ⟨[(0, 1)], [(0, 0)], [(1, ⟨0, 1, [], 0, [1], [1]⟩)]⟩
        ⟨0, 1, [], 0, [1], [1]⟩ ⟨0, 1, [], 0, [1], [1]⟩) :=
  see_eq_spec_majority ⟨[(0, 1)], [(0, 0)], [(1, ⟨0, 1, [], 0, [1], [1]⟩)]⟩ 1 1
    ⟨0, 1, [], 0, [1], [1]⟩ ⟨0, 1, [], 0, [1], [1]⟩ (by decide) (by decide) (by decide)

/-- C2 (amended): See with an unindexed argument returns false only when
the bound validator set is empty; with a non-empty validator set it fails
(nil dereference of the missing record, or an index panic) instead of
degrading gracefully to false. -/
theorem see_unindexed_amended (st : Strongly) (who whom : EH) :
    (st.members = [] → st.See who whom = .ok false) ∧
    (st.members ≠ [] → (lookupE st.events who = none ∨ lookupE st.events whom = none) →
      ∃ er, st.See who whom = .fail er) := by
  constructor
  · intro hm
    simp [Strongly.See, sufficientCoherence, hm, coherePass, totalStake, hasMajority]
  · intro hm hnone
    obtain ⟨⟨m, w⟩, rest, hms⟩ : ∃ kv rest, st.members = kv :: rest := by
      cases hmem : st.members with
      | nil => exact absurd hmem hm
      | cons kv rest => exact ⟨kv, rest, rfl⟩
    cases hwm : lookupE st.events whom with
    | none =>
      refine ⟨.nilDeref, ?_⟩
      simp [Strongly.See, sufficientCoherence, hms, coherePass, coherentCond, hwm]
    | some b =>
      have hwo : lookupE st.events who = none := by
        rcases hnone with h | h
        · exact h
        · rw [h] at hwm
          exact absurd hwm (by simp)
      cases hbg : b.LowestSees[slotOf st.nodes m]? with
      | none =>
        refine ⟨.indexOOB, ?_⟩
        simp [Strongly.See, sufficientCoherence, hms, coherePass, coherentCond, hwm, hwo, hbg]
      | some l =>
        refine ⟨.nilDeref, ?_⟩
        simp [Strongly.See, sufficientCoherence, hms, coherePass, coherentCond, hwm, hwo, hbg]

/-- Witness for C2's amended theorem: a non-empty validator set and an
unindexed first argument make See fail. -/
theorem see_unindexed_amended_witness :
    ∃ er, Strongly.See ⟨[(0, 1)], [], []⟩ 7 5 = .fail er :=
  (see_unindexed_amended ⟨[(0, 1)], [], []⟩ 7 5).2 (by decide) (Or.inl (by decide))

/-- C2 (counterexample): event 5 is indexed, hash 7 is not, the validator
set is non-empty — See(7, 5) dereferences the missing record and fails
instead of returning false. -/
theorem see_unindexed_counterexample :
    Strongly.Add (Strongly.Reset [(0, 1)]) ⟨5, 0, 1, []⟩ =
      .ok ⟨[(0, 1)], [(0, 0)], [(5, ⟨0, 1, [], 0, [1], [1]⟩)]⟩ ∧
    lookupE [(5, (⟨0, 1, [], 0, [1], [1]⟩ : SEvent))] 7 = none ∧
    Strongly.See ⟨[(0, 1)], [(0, 0)], [(5, ⟨0, 1, [], 0, [1], [1]⟩)]⟩ 7 5 = .fail .nilDeref ∧
    Strongly.See ⟨[(0, 1)], [(0, 0)], [(5, ⟨0, 1, [], 0, [1], [1]⟩)]⟩ 7 5 ≠ .ok false := by
  decide

theorem coherePass_all {nodes : List (Peer × Nat)} {a b : SEvent}
    (hall : ∀ m : Peer, coherentCond (some a) (some b) (slotOf nodes m) = .ok true) :
    ∀ ms : List (Peer × Nat), coherePass nodes (some a) (some b) ms = .ok (totalStake ms) := by
  intro ms
  induction ms with
  | nil => rfl
  | cons kv rest ih =>
    obtain ⟨m, w⟩ := kv
    simp [coherePass, hall m, ih, totalStake]

/-- C3 (amended): self-coherence does hold for the first event indexed
after a Reset (every member then maps to slot 0, the creator's slot, whose
entries are the event's own non-zero sequence number, so the full stake is
counted); but it is not unconditional — see the counterexample. -/
theorem see_self_after_first_add (members : List (Peer × Nat)) (e : InEvent)
    (hm : 0 < members.length) (ht : 0 < totalStake members) (hi : e.Index ≠ 0)
    (hp : e.Parents = []) :
    ∃ st2, (Strongly.Reset members).Add e = .ok st2 ∧ st2.See e.hash e.hash = .ok true := by
  obtain ⟨L, hL⟩ : ∃ L, members.length = L + 1 := ⟨members.length - 1, by omega⟩
  have hset : setAt (List.replicate members.length 0) 0 e.Index =
      .ok (e.Index :: List.replicate L 0) := by
    simp only [setAt, List.length_replicate, if_pos hm]
    rw [hL, List.replicate_succ]
    rfl
  have hev : fillEventRefs []
      (⟨e.Creator, e.Index, e.Parents, 0, List.replicate members.length 0,
        List.replicate members.length 0⟩ : SEvent) =
      .ok ([], (⟨e.Creator, e.Index, e.Parents, 0, e.Index :: List.replicate L 0,
        e.Index :: List.replicate L 0⟩ : SEvent)) := by
    simp only [fillEventRefs, hset, hp, fillEventRefsLoop]
  have hAdd : (Strongly.Reset members).Add e =
      .ok ⟨members, [(e.Creator, 0)],
        [(e.hash, ⟨e.Creator, e.Index, e.Parents, 0, e.Index :: List.replicate L 0,
          e.Index :: List.replicate L 0⟩)]⟩ := by
    simp only [Strongly.Add, Strongly.Reset, lookupE, lookupNode, List.length_nil,
      Option.getD_none, hev]
    rfl
  refine ⟨_, hAdd, ?_⟩
  have hlook : lookupE
      [(e.hash, (⟨e.Creator, e.Index, e.Parents, 0, e.Index :: List.replicate L 0,
        e.Index :: List.replicate L 0⟩ : SEvent))] e.hash =
      some ⟨e.Creator, e.Index, e.Parents, 0, e.Index :: List.replicate L 0,
        e.Index :: List.replicate L 0⟩ := by
    simp [lookupE]
  have hall : ∀ m : Peer, coherentCond
      (some (⟨e.Creator, e.Index, e.Parents, 0, e.Index :: List.replicate L 0,
        e.Index :: List.replicate L 0⟩ : SEvent))
      (some (⟨e.Creator, e.Index, e.Parents, 0, e.Index :: List.replicate L 0,
        e.Index :: List.replicate L 0⟩ : SEvent))
      (slotOf [(e.Creator, 0)] m) = .ok true := by
    intro m
    have hslot : slotOf [(e.Creator, 0)] m = 0 := by
      by_cases hcm : e.Creator = m
      · simp [slotOf, lookupNode, hcm]
      · simp [slotOf, lookupNode, hcm]
    rw [hslot]
    simp [coherentCond, hi]
  have hmaj : hasMajority (totalStake members) (totalStake members) = true := by
    simp only [hasMajority, decide_eq_true_eq]
    omega
  simp only [Strongly.See, hlook, sufficientCoherence, coherePass_all hall, hmaj]

/-- Witness for C3's amended theorem: one member, one event. -/
theorem see_self_after_first_add_witness :
    ∃ st2, (Strongly.Reset [(0, 1)]).Add ⟨1, 0, 1, []⟩ = .ok st2 ∧
      st2.See 1 1 = .ok true :=
  see_self_after_first_add [(0, 1)] ⟨1, 0, 1, []⟩ (by decide) (by decide) (by decide) rfl

/-- C3 (counterexample): both events below are indexed by Add, yet with
two equal-weight validators and two creators neither See(e, e) is true —
a single validator's weight does not reach the majority threshold,
refuting self-coherence regardless of the validator set. -/
theorem see_self_counterexample :
    Strongly.Add (Strongly.Reset [(0, 1), (1, 1)]) ⟨1, 0, 1, []⟩ =
      .ok ⟨[(0, 1), (1, 1)], [(0, 0)], [(1, ⟨0, 1, [], 0, [1, 0], [1, 0]⟩)]⟩ ∧
    Strongly.Add ⟨[(0, 1), (1, 1)], [(0, 0)], [(1, ⟨0, 1, [], 0, [1, 0], [1, 0]⟩)]⟩
        ⟨2, 1, 1, []⟩ =
      .ok ⟨[(0, 1), (1, 1)], [(0, 0), (1, 1)],
        [(1, ⟨0, 1, [], 0, [1, 0], [1, 0]⟩), (2, ⟨1, 1, [], 1, [0, 1], [0, 1]⟩)]⟩ ∧
    Strongly.See ⟨[(0, 1), (1, 1)], [(0, 0), (1, 1)],
      [(1, ⟨0, 1, [], 0, [1, 0], [1, 0]⟩), (2, ⟨1, 1, [], 1, [0, 1], [0, 1]⟩)]⟩ 1 1 =
      .ok false ∧
    Strongly.See ⟨[(0, 1), (1, 1)], [(0, 0), (1, 1)],
      [(1, ⟨0, 1, [], 0, [1, 0], [1, 0]⟩), (2, ⟨1, 1, [], 1, [0, 1], [0, 1]⟩)]⟩ 2 2 =
      .ok false := by
  decide

/-- C10: a validator-set member that was never the creator of any indexed
event has no creator slot, so sufficientCoherence evaluates it at slot 0 —
the first-observed creator's slot — and counts its weight exactly when
slot 0's LowestSees/HighestSeen entries satisfy the test. -/
theorem missing_member_slot_zero (nodes : List (Peer × Nat)) (m : Peer)
    (hm : lookupNode nodes m = none) :
    slotOf nodes m = 0 ∧
    ∀ (e1 e2 : SEvent) (l h : Nat), e2.LowestSees.get? 0 = some l →
      e1.HighestSeen.get? 0 = some h → ∀ (w : Nat) (rest : List (Peer × Nat)),
      (∀ er, coherePass nodes (some e1) (some e2) rest = .fail er →
        coherePass nodes (some e1) (some e2) ((m, w) :: rest) = .fail er) ∧
      (∀ s, coherePass nodes (some e1) (some e2) rest = .ok s →
        coherePass nodes (some e1) (some e2) ((m, w) :: rest) =
          .ok (if decide (l ≤ h) && decide (l ≠ 0) then w + s else s)) := by
  have hslot : slotOf nodes m = 0 := by simp [slotOf, hm]
  refine ⟨hslot, ?_⟩
  intro e1 e2 l h hl hh w rest
  have hcond : coherentCond (some e1) (some e2) (slotOf nodes m) =
      .ok (decide (l ≤ h) && decide (l ≠ 0)) := by
    rw [hslot]
    simp only [coherentCond, hl, hh]
  constructor
  · intro er hrest
    simp only [coherePass, hcond, hrest]
  · intro s hrest
    simp only [coherePass, hcond, hrest]

/-- Witness for C10: member 1 has no slot in the table `[(5, 0)]`; its
weight is counted against slot 0 of the stored arrays. -/
theorem missing_member_slot_zero_witness :
    slotOf [(5, 0)] 1 = 0 ∧
    coherePass [(5, 0)] (some ⟨0, 1, [], 0, [1], [1]⟩) (some ⟨0, 1, [], 0, [1], [1]⟩)
      [(1, 1)] = .ok 1 := by
  have h := missing_member_slot_zero [(5, 0)] 1 (by decide)
  refine ⟨h.1, ?_⟩
  have h2 := (h.2 ⟨0, 1, [], 0, [1], [1]⟩ ⟨0, 1, [], 0, [1], [1]⟩ 1 1 rfl rfl 1 []).2 0 rfl
  rw [h2]
  decide

/-- C6: refutation at the failing input.  With one pending sender group of
five 300-gas transactions, an event with GasPowerUsed 0 and GasPowerLeft
1000, and cap 1000: the gas accounting accepts exactly three candidates
(900 gas used, 100 left), but each accepted candidate appends the whole
group (`append(e.Transactions, txs...)`), so 15 transactions end up in the
event instead of the 3 whose gas fits. -/
theorem add_txs_group_append_bug :
    (packTxs 1000 [[300, 300, 300, 300, 300]] ⟨0, 1000, []⟩).GasPowerUsed = 900 ∧
    (packTxs 1000 [[300, 300, 300, 300, 300]] ⟨0, 1000, []⟩).GasPowerLeft = 100 ∧
    (packTxs 1000 [[300, 300, 300, 300, 300]] ⟨0, 1000, []⟩).Transactions.length = 15 ∧
    (packTxs 1000 [[300, 300, 300, 300, 300]] ⟨0, 1000, []⟩).Transactions.length ≠ 3 := by
  decide

theorem spillAux_post (calcSize : PackEvent → Nat) (maxSize : Nat) :
    ∀ (n : Nat) (e : PackEvent), e.Transactions.length ≤ n →
      calcSize (spillAux calcSize maxSize n e) ≤ maxSize ∨
      (spillAux calcSize maxSize n e).Transactions = [] := by
  intro n
  induction n with
  | zero =>
    intro e he
    have : e.Transactions = [] := List.length_eq_zero.mp (by omega)
    simp only [spillAux]
    exact Or.inr this
  | succ n ih =>
    intro e he
    by_cases hc : maxSize < calcSize e ∧ e.Transactions ≠ []
    · simp only [spillAux, if_pos hc]
      apply ih
      have hlen : (popRefund e).Transactions.length = e.Transactions.length - 1 := by
        obtain ⟨g, hg⟩ : ∃ g, e.Transactions.getLast? = some g := by
          cases hgl : e.Transactions.getLast? with
          | none => exact absurd (List.getLast?_eq_none_iff.mp hgl) hc.2
          | some g => exact ⟨g, rfl⟩
        simp [popRefund, hg, List.length_dropLast]
      have hpos : 0 < e.Transactions.length := List.length_pos.mpr hc.2
      omega
    · simp only [spillAux, if_neg hc]
      rcases Decidable.not_and_iff_or_not.mp hc with h | h
      · exact Or.inl (by omega)
      · exact Or.inr (by
          by_contra hne
          exact h hne)

/-- C7 (amended): the size-based spill loop of addTxs.  When the
serialized size exceeds the bound and transactions remain, one step
removes exactly the tail transaction and the loop recurses on the popped
state; it stops immediately when the bound holds or the list is empty,
and its result always satisfies the size bound or has an empty
transaction list.  The refund is wrapping uint64 arithmetic: GasPowerUsed
drops by exactly the removed gas and GasPowerLeft grows by it only under
the in-range provisos (removed gas at most GasPowerUsed, no uint64
overflow) — provisos every gas-accounted packing satisfies, but which the
group-append bug (C6) can violate, wrapping GasPowerUsed below zero (see
the counterexample). -/
theorem spill_txs_spec (calcSize : PackEvent → Nat) (maxSize : Nat) (e : PackEvent)
    (hsz : maxSize < calcSize e) (hne : e.Transactions ≠ []) (g : Nat)
    (hg : e.Transactions.getLast? = some g) (hgu : g ≤ e.GasPowerUsed)
    (hu : e.GasPowerUsed < 2 ^ 64) (hl : e.GasPowerLeft + g < 2 ^ 64) :
    spillTxs calcSize maxSize e = spillTxs calcSize maxSize (popRefund e) ∧
    (popRefund e).Transactions = e.Transactions.dropLast ∧
    (popRefund e).GasPowerUsed = e.GasPowerUsed - g ∧
    (popRefund e).GasPowerLeft = e.GasPowerLeft + g ∧
    (calcSize (spillTxs calcSize maxSize e) ≤ maxSize ∨
      (spillTxs calcSize maxSize e).Transactions = []) ∧
    (∀ e2 : PackEvent, ¬ (maxSize < calcSize e2 ∧ e2.Transactions ≠ []) →
      spillTxs calcSize maxSize e2 = e2) := by
  have hgm : g % 2 ^ 64 = g := Nat.mod_eq_of_lt (by omega)
  have hused : (popRefund e).GasPowerUsed = e.GasPowerUsed - g := by
    simp only [popRefund, hg, hgm]
    have h1 : e.GasPowerUsed + (2 ^ 64 - g) = 2 ^ 64 + (e.GasPowerUsed - g) := by omega
    rw [h1, Nat.add_mod_left, Nat.mod_eq_of_lt (by omega)]
  have hleft : (popRefund e).GasPowerLeft = e.GasPowerLeft + g := by
    simp only [popRefund, hg]
    exact Nat.mod_eq_of_lt hl
  have hdrop : (popRefund e).Transactions = e.Transactions.dropLast := by
    simp only [popRefund, hg]
  have hlen : (popRefund e).Transactions.length = e.Transactions.length - 1 := by
    rw [hdrop, List.length_dropLast]
  have hpos : 0 < e.Transactions.length := List.length_pos.mpr hne
  have hunf : spillTxs calcSize maxSize e = spillTxs calcSize maxSize (popRefund e) := by
    obtain ⟨n, hn⟩ : ∃ n, e.Transactions.length = n + 1 := ⟨e.Transactions.length - 1, by omega⟩
    simp only [spillTxs, hn, spillAux, if_pos (And.intro hsz hne), hlen, Nat.add_sub_cancel]
  refine ⟨hunf, hdrop, hused, hleft, ?_, ?_⟩
  · simpa only [spillTxs] using spillAux_post calcSize maxSize e.Transactions.length e le_rfl
  · intro e2 hc
    cases hn : e2.Transactions.length with
    | zero => simp only [spillTxs, hn, spillAux]
    | succ n => simp only [spillTxs, hn, spillAux, if_neg hc]

/-- Witness for C7 with a concrete size function (5 bytes per transaction),
size bound 7, and a packed state holding two 300-gas transactions. -/
theorem spill_txs_spec_witness :
    spillTxs (fun pe => pe.Transactions.length * 5) 7 ⟨600, 400, [300, 300]⟩ =
      spillTxs (fun pe => pe.Transactions.length * 5) 7 (popRefund ⟨600, 400, [300, 300]⟩) ∧
    (popRefund ⟨600, 400, [300, 300]⟩).Transactions = [300] ∧
    (popRefund ⟨600, 400, [300, 300]⟩).GasPowerUsed = 300 ∧
    (popRefund ⟨600, 400, [300, 300]⟩).GasPowerLeft = 700 := by
  have h := spill_txs_spec (fun pe => pe.Transactions.length * 5) 7 ⟨600, 400, [300, 300]⟩
    (by decide) (by decide) 300 (by decide) (by decide) (by decide) (by decide)
  exact ⟨h.1, by rw [h.2.1]; try decide, by rw [h.2.2.1]; try decide, by rw [h.2.2.2.1]; try decide⟩

/-- C7 (counterexample): from the program's own packed state the spill
loop does not always refund exactly.  Packing five 300-gas transactions
of one sender group over-appends to 15 transactions while accounting only
900 gas (the C6 bug); with serialized size measured as the transaction
count and bound 10, the spill loop still has 12 > 10 transactions after
three pops (GasPowerUsed already 0), so it performs a fourth removal —
and Go's uint64 `GasPowerUsed -= tx.Gas()` wraps 0 - 300 to 2^64 - 300:
GasPowerUsed increases instead of decreasing by the removed gas.  The
full addTxs run at this input ends with GasPowerUsed = 2^64 - 600. -/
theorem spill_refund_wrap_counterexample :
    packTxs 1000 [[300, 300, 300, 300, 300]] ⟨0, 1000, []⟩ =
      ⟨900, 100, List.replicate 15 300⟩ ∧
    popRefund (popRefund (popRefund ⟨900, 100, List.replicate 15 300⟩)) =
      ⟨0, 1000, List.replicate 12 300⟩ ∧
    (10 : Nat) < (List.replicate 12 (300 : Nat)).length ∧
    (popRefund ⟨0, 1000, List.replicate 12 300⟩).GasPowerUsed = 2 ^ 64 - 300 ∧
    (⟨0, 1000, List.replicate 12 300⟩ : PackEvent).GasPowerUsed <
      (popRefund ⟨0, 1000, List.replicate 12 300⟩).GasPowerUsed ∧
    (addTxs (fun pe => pe.Transactions.length) 10 1000 [[300, 300, 300, 300, 300]]
      ⟨0, 1000, []⟩).GasPowerUsed = 2 ^ 64 - 600 := by
  decide

/-- C8 (amended): with a self-parent present and GasPowerLeft exactly at
EmergencyThreshold, isAllowedToEmit returns false whenever the
self-parent's GasPowerLeft is one unit higher — under any timing and any
configuration outside the degenerate one where the pacing branch divides
by zero (GasPowerLeft = 0 with NoTxsThreshold = 0, a Go panic); with
equal values it returns true provided GasPowerLeft exceeds
NoTxsThreshold, so that the earlier low-power pacing branch does not
apply (otherwise pacing can still deny, see the counterexample). -/
theorem is_allowed_emergency_amended (gp : GasPowerCfg) (cfg : EmitterCfg)
    (t p : Int) (gl : Nat) (hgl : gl = gp.emergencyThreshold)
    (hnz : ¬ (gl = 0 ∧ gp.noTxsThreshold = 0)) :
    isAllowedToEmit gp cfg gl t p (some (gl + 1)) = some false ∧
    (gp.noTxsThreshold < gl → isAllowedToEmit gp cfg gl t p (some gl) = some true) := by
  have hguard : ¬ (gl ≤ gp.noTxsThreshold ∧ gp.noTxsThreshold = 0) := by
    intro hc
    exact hnz ⟨by omega, hc.2⟩
  constructor
  · by_cases hpace : gl ≤ gp.noTxsThreshold ∧
        i64 (t - p) < adjustedEmitInterval gp cfg gl
    · simp only [isAllowedToEmit, if_neg hguard, if_pos hpace]
    · have hem : gl ≤ gp.emergencyThreshold := le_of_eq hgl
      simp only [isAllowedToEmit, if_neg hguard, if_neg hpace, if_pos hem]
      have : ¬ gl + 1 ≤ gl := by omega
      simp [this]
  · intro hnt
    have hpace : ¬ (gl ≤ gp.noTxsThreshold ∧
        i64 (t - p) < adjustedEmitInterval gp cfg gl) := by
      intro hc
      omega
    have hem : gl ≤ gp.emergencyThreshold := le_of_eq hgl
    simp only [isAllowedToEmit, if_neg hguard, if_neg hpace, if_pos hem]
    simp

/-- Witness for C8's amended theorem: NoTxsThreshold 3 below
EmergencyThreshold 5; at GasPowerLeft 5 a self-parent at 6 denies and a
self-parent at 5 allows. -/
theorem is_allowed_emergency_amended_witness :
    isAllowedToEmit ⟨3, 5⟩ ⟨10, 100⟩ 5 0 0 (some 6) = some false ∧
    isAllowedToEmit ⟨3, 5⟩ ⟨10, 100⟩ 5 0 0 (some 5) = some true := by
  have h := is_allowed_emergency_amended ⟨3, 5⟩ ⟨10, 100⟩ 0 0 5 rfl (by decide)
  exact ⟨h.1, h.2 (by decide)⟩

/-- C8 (counterexample): NoTxsThreshold 10 at or above EmergencyThreshold
5 — at GasPowerLeft 5 with equal self-parent power and no time elapsed,
the low-power pacing branch denies, so isAllowedToEmit returns false even
though the emergency comparison would allow, refuting the claim's
unconditional true case. -/
theorem is_allowed_pacing_counterexample :
    isAllowedToEmit ⟨10, 5⟩ ⟨10, 100⟩ 5 0 0 (some 5) = some false := by
  decide

/-- C9: Add allocates both per-event arrays with the validator-set size
and assigns creator slots in first-seen order without a bound check.  For
a fresh event hash and a not-yet-seen creator: when the slot table has
already reached the validator-set size, the seeding write
`e.LowestSees[e.CreatorN]` is out of range and Add panics; below the
bound (shown here for a parent-free event) Add succeeds. -/
theorem add_creator_slot_bounds (st : Strongly) (e : InEvent)
    (h1 : lookupE st.events e.hash = none)
    (h2 : lookupNode st.nodes e.Creator = none) :
    (st.members.length ≤ st.nodes.length → st.Add e = .fail .indexOOB) ∧
    (st.nodes.length < st.members.length → e.Parents = [] →
      ∃ st2, st.Add e = .ok st2) := by
  constructor
  · intro hle
    have hset : setAt (List.replicate st.members.length 0) st.nodes.length e.Index =
        .fail .indexOOB := by
      simp only [setAt, List.length_replicate]
      rw [if_neg (by omega)]
    simp only [Strongly.Add, h1, h2, Option.getD_none, fillEventRefs, hset]
  · intro hlt hp
    have hset : setAt (List.replicate st.members.length 0) st.nodes.length e.Index =
        .ok ((List.replicate st.members.length 0).set st.nodes.length e.Index) := by
      simp only [setAt, List.length_replicate]
      rw [if_pos hlt]
    refine ⟨⟨st.members, st.nodes ++ [(e.Creator, st.nodes.length)],
      st.events ++ [(e.hash, ⟨e.Creator, e.Index, e.Parents, st.nodes.length,
        (List.replicate st.members.length 0).set st.nodes.length e.Index,
        (List.replicate st.members.length 0).set st.nodes.length e.Index⟩)]⟩, ?_⟩
    simp only [Strongly.Add, h1, h2, Option.getD_none, fillEventRefs, hset, hp,
      fillEventRefsLoop]

/-- Witness for C9: one bound validator, one creator slot already taken by
peer 7 — an event by the fresh peer 8 makes Add fail with the index panic. -/
theorem add_creator_slot_bounds_witness :
    Strongly.Add ⟨[(0, 1)], [(7, 0)], [(3, ⟨7, 1, [], 0, [1], [1]⟩)]⟩ ⟨9, 8, 1, []⟩ =
      .fail .indexOOB :=
  (add_creator_slot_bounds ⟨[(0, 1)], [(7, 0)], [(3, ⟨7, 1, [], 0, [1], [1]⟩)]⟩
    ⟨9, 8, 1, []⟩ (by decide) (by decide)).1 (by decide)
